import Mathlib

/-!
Verification of the chunking-and-stitching subsystem of the `roth-vectors`
document-ingestion pipeline.

Strings of the TypeScript source are embedded as `List Char`; the pure
per-group logic of the two batch scripts is embedded as explicit functions
over that representation.  Sources embedded here:

* `src/cleanse/chunkUtils.ts` — `splitIntoChunks`, `countTokens`;
* `src/finetune/stitchCleaned.ts` — the per-group merge/re-index logic of
  `main` and its file-name grouping;
* `src/llm/stich.ts` — the per-group stitching logic of `main` and its
  output naming.
-/

namespace RothVectors

/-! ## Tokenization (chunkUtils.ts, lines 17-18 and 54-56)

`text.split(/\s+/).filter((token) => token.length > 0)` splits the string on
runs of whitespace and discards empty pieces, i.e. it returns the maximal
nonempty runs of non-whitespace characters, in order. -/

/-- Whitespace test for the `\s` character class on the characters relevant
here (space, tab, newline, carriage return, vertical tab, form feed). -/
def isWs (c : Char) : Bool :=
  c = ' ' || c = '\t' || c = '\n' || c = '\r' || c = '\x0b' || c = '\x0c'

/-- Accumulator-style scanner computing the maximal nonempty non-whitespace
runs of a character list.  `acc` holds the (reversed) current run. -/
def tokAux : List Char → List Char → List (List Char)
  | acc, [] => if acc.isEmpty then [] else [acc.reverse]
  | acc, c :: rest =>
      if isWs c then
        if acc.isEmpty then tokAux [] rest else acc.reverse :: tokAux [] rest
      else
        tokAux (c :: acc) rest

/-- `text.split(/\s+/).filter((token) => token.length > 0)`. -/
def tokenize (text : List Char) : List (List Char) :=
  tokAux [] text

/-- `countTokens` (chunkUtils.ts lines 54-56): number of whitespace tokens. -/
def countTokens (text : List Char) : Nat :=
  (tokenize text).length

/-- `tokens.join(" ")`: interleave a single space between tokens. -/
def joinTokens : List (List Char) → List Char
  | [] => []
  | [t] => t
  | t :: ts => t ++ ' ' :: joinTokens ts

/-- A well-formed token: nonempty and free of whitespace characters. -/
def goodTok (t : List Char) : Prop :=
  t ≠ [] ∧ ∀ c ∈ t, isWs c = false

/-! ### Tokenization lemmas -/

theorem tokAux_nil (acc : List Char) :
    tokAux acc [] = if acc.isEmpty then [] else [acc.reverse] := rfl

theorem tokAux_cons (acc : List Char) (c : Char) (rest : List Char) :
    tokAux acc (c :: rest) =
      if isWs c then
        if acc.isEmpty then tokAux [] rest else acc.reverse :: tokAux [] rest
      else tokAux (c :: acc) rest := rfl

theorem isWs_space : isWs ' ' = true := by decide

theorem tokAux_append_nonws {t : List Char} (ht : ∀ c ∈ t, isWs c = false) :
    ∀ (acc s : List Char), tokAux acc (t ++ s) = tokAux (t.reverse ++ acc) s := by
  induction t with
  | nil => intro acc s; simp
  | cons c t ih =>
      intro acc s
      have hc : isWs c = false := ht c (List.mem_cons_self _ _)
      have ht' : ∀ d ∈ t, isWs d = false := fun d hd => ht d (List.mem_cons_of_mem _ hd)
      rw [List.cons_append, tokAux_cons, if_neg (by simp [hc]), ih ht' (c :: acc) s]
      congr 1
      simp [List.append_assoc]

theorem tokAux_append_ws_single : ∀ (a : List Char) (acc : List Char),
    tokAux acc (a ++ [' ']) = tokAux acc a := by
  intro a
  induction a with
  | nil =>
      intro acc
      rw [List.nil_append, tokAux_cons, if_pos isWs_space, tokAux_nil]
      by_cases h : acc.isEmpty <;> simp [h, tokAux_nil]
  | cons c a ih =>
      intro acc
      rw [List.cons_append, tokAux_cons, tokAux_cons]
      by_cases h : isWs c
      · rw [if_pos h, if_pos h]
        by_cases ha : acc.isEmpty
        · rw [if_pos ha, if_pos ha, ih]
        · rw [if_neg ha, if_neg ha, ih]
      · rw [if_neg h, if_neg h, ih]

theorem tokAux_append_ws_split : ∀ (a b : List Char) (acc : List Char),
    tokAux acc (a ++ ' ' :: b) = tokAux acc (a ++ [' ']) ++ tokAux [] b := by
  intro a
  induction a with
  | nil =>
      intro b acc
      rw [List.nil_append, List.nil_append, tokAux_cons, tokAux_cons,
        if_pos isWs_space, if_pos isWs_space]
      by_cases h : acc.isEmpty
      · rw [if_pos h, if_pos h, tokAux_nil]
        simp
      · rw [if_neg h, if_neg h, tokAux_nil]
        simp [h]
  | cons c a ih =>
      intro b acc
      rw [List.cons_append, List.cons_append, tokAux_cons, tokAux_cons]
      by_cases h : isWs c
      · rw [if_pos h, if_pos h]
        by_cases ha : acc.isEmpty
        · rw [if_pos ha, if_pos ha, ih]
        · rw [if_neg ha, if_neg ha, ih, List.cons_append]
      · rw [if_neg h, if_neg h, ih]

/-- A single space between two pieces of text makes tokenization distribute
over the concatenation. -/
theorem tokenize_append_sep (a b : List Char) :
    tokenize (a ++ ' ' :: b) = tokenize a ++ tokenize b := by
  unfold tokenize
  rw [tokAux_append_ws_split, tokAux_append_ws_single]

/-- A nonempty whitespace-free string is its own single token. -/
theorem tokenize_single {t : List Char} (h : goodTok t) : tokenize t = [t] := by
  obtain ⟨hne, hws⟩ := h
  unfold tokenize
  calc tokAux [] t = tokAux [] (t ++ []) := by rw [List.append_nil]
    _ = tokAux (t.reverse ++ []) [] := tokAux_append_nonws hws [] []
    _ = [t] := by
        rw [tokAux_nil, if_neg (by simp [hne])]
        simp

/-- Round trip: joining well-formed tokens with single spaces and
re-tokenizing recovers the token list. -/
theorem tokenize_joinTokens : ∀ {ts : List (List Char)},
    (∀ t ∈ ts, goodTok t) → tokenize (joinTokens ts) = ts := by
  intro ts
  induction ts with
  | nil => intro _; rfl
  | cons t ts ih =>
      intro h
      cases ts with
      | nil =>
          simpa [joinTokens] using tokenize_single (h t (List.mem_cons_self _ _))
      | cons u us =>
          have hgt : goodTok t := h t (List.mem_cons_self _ _)
          have hrest : ∀ v ∈ u :: us, goodTok v := fun v hv =>
            h v (List.mem_cons_of_mem _ hv)
          simp only [joinTokens]
          rw [tokenize_append_sep, tokenize_single hgt, ih hrest]
          rfl

/-- Every token produced by `tokAux` (under a whitespace-free accumulator)
is well formed. -/
theorem tokAux_good : ∀ (s acc : List Char), (∀ c ∈ acc, isWs c = false) →
    ∀ t ∈ tokAux acc s, goodTok t := by
  intro s
  induction s with
  | nil =>
      intro acc hacc t ht
      simp only [tokAux] at ht
      by_cases h : acc.isEmpty
      · simp [h] at ht
      · simp only [h, Bool.false_eq_true, if_false, List.mem_singleton] at ht
        subst ht
        refine ⟨?_, ?_⟩
        · intro hrev
          exact h (by simpa [List.isEmpty_iff] using List.reverse_eq_nil_iff.mp hrev)
        · intro c hc
          exact hacc c (List.mem_reverse.mp hc)
  | cons c s ih =>
      intro acc hacc t ht
      simp only [tokAux] at ht
      by_cases hws : isWs c
      · simp only [hws, if_true] at ht
        by_cases hae : acc.isEmpty
        · simp only [hae, if_true] at ht
          exact ih [] (by simp) t ht
        · simp only [hae, Bool.false_eq_true, if_false, List.mem_cons] at ht
          rcases ht with ht | ht
          · subst ht
            refine ⟨?_, ?_⟩
            · intro hrev
              exact hae (by simpa [List.isEmpty_iff] using List.reverse_eq_nil_iff.mp hrev)
            · intro d hd
              exact hacc d (List.mem_reverse.mp hd)
          · exact ih [] (by simp) t ht
      · simp only [hws, Bool.false_eq_true, if_false] at ht
        refine ih (c :: acc) ?_ t ht
        intro d hd
        rcases List.mem_cons.mp hd with hd | hd
        · subst hd; simpa using hws
        · exact hacc d hd

/-- Every token of `tokenize text` is nonempty and whitespace free. -/
theorem tokenize_good {text : List Char} : ∀ t ∈ tokenize text, goodTok t :=
  tokAux_good text [] (by simp)

/-! ## splitIntoChunks (chunkUtils.ts, lines 12-47) -/

/-- The literal `<OVERLAP_START>` marker of chunkUtils.ts. -/
def markerStart : List Char := "<OVERLAP_START>".toList

/-- The literal `<OVERLAP_END>` marker of chunkUtils.ts. -/
def markerEnd : List Char := "<OVERLAP_END>".toList

/-- Marked chunk text (chunkUtils.ts line 33):
`` `<OVERLAP_START> ${overlapTokens} <OVERLAP_END> ${remainingTokens}` ``
where both pieces are the respective token slices joined with `" "`. -/
def mkMarked (overlapTokens remainingTokens : List (List Char)) : List Char :=
  markerStart ++ ' ' ::
    (joinTokens overlapTokens ++ ' ' :: (markerEnd ++ ' ' :: joinTokens remainingTokens))

/-- `currentTokens` of loop iteration with the given `start`
(chunkUtils.ts lines 24-26): `tokens.slice(start, min(start+chunkSize, n))`. -/
def windowAt (chunkSize : Nat) (tokens : List (List Char)) (start : Nat) :
    List (List Char) :=
  (tokens.drop start).take (min (start + chunkSize) tokens.length - start)

/-- The chunk string built by one loop iteration (chunkUtils.ts lines 28-37). -/
def chunkAt (chunkSize overlap : Nat) (tokens : List (List Char)) (start : Nat) :
    List Char :=
  if 0 < start ∧ overlap < (windowAt chunkSize tokens start).length then
    mkMarked ((windowAt chunkSize tokens start).take overlap)
      ((windowAt chunkSize tokens start).drop overlap)
  else joinTokens (windowAt chunkSize tokens start)

/-- The `while` loop of `splitIntoChunks` (chunkUtils.ts lines 22-45), with
explicit fuel.  `none` means the fuel bound was exhausted; the source loop is
unbounded, so an input needing unbounded fuel is one on which the source
never terminates. -/
def splitAux (chunkSize overlap : Nat) (tokens : List (List Char)) :
    Nat → Nat → Option (List (List Char))
  | 0, _ => none
  | fuel + 1, start =>
    if start < tokens.length then
      if min (start + chunkSize) tokens.length = tokens.length then
        some [chunkAt chunkSize overlap tokens start]
      else
        match splitAux chunkSize overlap tokens fuel
            (min (start + chunkSize) tokens.length - overlap) with
        | none => none
        | some rest => some (chunkAt chunkSize overlap tokens start :: rest)
    else some []

/-- `splitIntoChunks(text, chunkSize, overlap)`; fuel `tokens.length + 1`
suffices whenever the source loop terminates. -/
def splitIntoChunks (text : List Char) (chunkSize overlap : Nat) :
    Option (List (List Char)) :=
  splitAux chunkSize overlap (tokenize text) ((tokenize text).length + 1) 0

/-- De-marking of a non-initial chunk (spec §4.2/§8): remove the two marker
tokens and the `overlap` overlap-duplicated tokens that the chunker placed at
the front of the chunk, at the token level. -/
def stripOverlap (overlap : Nat) (chunk : List Char) : List (List Char) :=
  (tokenize chunk).drop (overlap + 2)

/-- Token sequence of chunk 1 followed by the de-marked chunks 2..n. -/
def reconstruct (overlap : Nat) : List (List Char) → List (List Char)
  | [] => []
  | c :: rest => tokenize c ++ (rest.map (stripOverlap overlap)).flatten

/-! ### Chunker lemmas -/

theorem splitAux_zero (cs ov : Nat) (tokens : List (List Char)) (start : Nat) :
    splitAux cs ov tokens 0 start = none := rfl

theorem splitAux_succ (cs ov : Nat) (tokens : List (List Char))
    (fuel start : Nat) :
    splitAux cs ov tokens (fuel + 1) start =
      if start < tokens.length then
        if min (start + cs) tokens.length = tokens.length then
          some [chunkAt cs ov tokens start]
        else
          match splitAux cs ov tokens fuel (min (start + cs) tokens.length - ov) with
          | none => none
          | some rest => some (chunkAt cs ov tokens start :: rest)
      else some [] := rfl

theorem goodTok_markerStart : goodTok markerStart := by
  constructor <;> decide

theorem goodTok_markerEnd : goodTok markerEnd := by
  constructor <;> decide

/-- Tokenizing a marked chunk exposes the two marker tokens around the
overlap slice. -/
theorem tokenize_mkMarked {o r : List (List Char)}
    (ho : ∀ t ∈ o, goodTok t) (hr : ∀ t ∈ r, goodTok t) :
    tokenize (mkMarked o r) = markerStart :: (o ++ markerEnd :: r) := by
  unfold mkMarked
  rw [tokenize_append_sep, tokenize_append_sep, tokenize_append_sep,
    tokenize_single goodTok_markerStart, tokenize_single goodTok_markerEnd,
    tokenize_joinTokens ho, tokenize_joinTokens hr]
  simp

theorem windowAt_length (cs : Nat) (tokens : List (List Char)) (start : Nat) :
    (windowAt cs tokens start).length = min (start + cs) tokens.length - start := by
  unfold windowAt
  rw [List.length_take, List.length_drop]
  omega

theorem windowAt_eq_take_cs (cs : Nat) (tokens : List (List Char)) (start : Nat) :
    windowAt cs tokens start = (tokens.drop start).take cs := by
  unfold windowAt
  rw [List.take_eq_take]
  rw [List.length_drop]
  omega

theorem windowAt_good {tokens : List (List Char)}
    (hgood : ∀ t ∈ tokens, goodTok t) (cs start : Nat) :
    ∀ t ∈ windowAt cs tokens start, goodTok t := fun t ht =>
  hgood t (List.drop_subset start tokens (List.take_subset _ _ ht))

/-- De-marking a marked window chunk recovers the window minus its first
`ov` (overlap-duplicated) tokens. -/
theorem stripOverlap_chunkAt {tokens : List (List Char)}
    (hgood : ∀ t ∈ tokens, goodTok t) {cs ov start : Nat} (hs : 0 < start)
    (hov : ov < (windowAt cs tokens start).length) :
    stripOverlap ov (chunkAt cs ov tokens start) =
      (windowAt cs tokens start).drop ov := by
  unfold chunkAt
  rw [if_pos ⟨hs, hov⟩]
  unfold stripOverlap
  rw [tokenize_mkMarked (fun t ht => windowAt_good hgood cs start t (List.take_subset _ _ ht))
    (fun t ht => windowAt_good hgood cs start t (List.drop_subset _ _ ht))]
  have hlen : ((windowAt cs tokens start).take ov).length = ov := by
    rw [List.length_take]
    omega
  have : markerStart :: ((windowAt cs tokens start).take ov ++
      markerEnd :: (windowAt cs tokens start).drop ov) =
      (markerStart :: (windowAt cs tokens start).take ov) ++
        markerEnd :: (windowAt cs tokens start).drop ov := rfl
  rw [this]
  have hlen2 : (markerStart :: (windowAt cs tokens start).take ov).length = ov + 1 := by
    simp [hlen]
  calc ((markerStart :: (windowAt cs tokens start).take ov) ++
        markerEnd :: (windowAt cs tokens start).drop ov).drop (ov + 2)
      = ((markerStart :: (windowAt cs tokens start).take ov) ++
        markerEnd :: (windowAt cs tokens start).drop ov).drop
          ((markerStart :: (windowAt cs tokens start).take ov).length + 1) := by
        rw [hlen2]
    _ = (markerEnd :: (windowAt cs tokens start).drop ov).drop 1 := List.drop_append 1
    _ = (windowAt cs tokens start).drop ov := rfl

/-- Behaviour of the loop on every iteration after the first: the windows
always exceed the overlap (so every chunk is marked), and de-marking and
concatenating them yields exactly the tokens from `start + ov` on. -/
theorem splitAux_suffix {cs ov : Nat} {tokens : List (List Char)}
    (hgood : ∀ t ∈ tokens, goodTok t) (hov : ov < cs) :
    ∀ (fuel start : Nat), 0 < start → start + ov < tokens.length →
      tokens.length - start < fuel →
      ∃ chunks, splitAux cs ov tokens fuel start = some chunks ∧
        (chunks.map (stripOverlap ov)).flatten = tokens.drop (start + ov) ∧
        ∀ c ∈ chunks, ∃ s, 0 < s ∧ ov < (windowAt cs tokens s).length ∧
          tokenize c = markerStart :: ((windowAt cs tokens s).take ov ++
            markerEnd :: (windowAt cs tokens s).drop ov) := by
  intro fuel
  induction fuel with
  | zero => intro start _ _ hf; omega
  | succ fuel ih =>
      intro start hs hlt hf
      have hsl : start < tokens.length := by omega
      have hwlen : (windowAt cs tokens start).length =
          min (start + cs) tokens.length - start := windowAt_length cs tokens start
      have hovw : ov < (windowAt cs tokens start).length := by
        rw [hwlen]; omega
      have htokc : tokenize (chunkAt cs ov tokens start) =
          markerStart :: ((windowAt cs tokens start).take ov ++
            markerEnd :: (windowAt cs tokens start).drop ov) := by
        unfold chunkAt
        rw [if_pos ⟨hs, hovw⟩]
        exact tokenize_mkMarked
          (fun t ht => windowAt_good hgood cs start t (List.take_subset _ _ ht))
          (fun t ht => windowAt_good hgood cs start t (List.drop_subset _ _ ht))
      have hstrip : stripOverlap ov (chunkAt cs ov tokens start) =
          (windowAt cs tokens start).drop ov := stripOverlap_chunkAt hgood hs hovw
      rw [splitAux_succ, if_pos hsl]
      by_cases hend : min (start + cs) tokens.length = tokens.length
      · rw [if_pos hend]
        refine ⟨[chunkAt cs ov tokens start], rfl, ?_, ?_⟩
        · rw [List.map_cons, List.map_nil, List.flatten_cons, List.flatten_nil,
            List.append_nil, hstrip, windowAt_eq_take_cs]
          have hfull : (tokens.drop start).take cs = tokens.drop start := by
            apply List.take_of_length_le
            rw [List.length_drop]
            omega
          rw [hfull, List.drop_drop]
        · intro c hc
          rw [List.mem_singleton] at hc
          subst hc
          exact ⟨start, hs, hovw, htokc⟩
      · have hcs_lt : start + cs < tokens.length := by omega
        have hmin : min (start + cs) tokens.length = start + cs := by omega
        obtain ⟨rest, hrest, hflat, hshape⟩ :=
          ih (start + cs - ov) (by omega) (by omega) (by omega)
        rw [if_neg hend, hmin, hrest]
        refine ⟨chunkAt cs ov tokens start :: rest, rfl, ?_, ?_⟩
        · rw [List.map_cons, List.flatten_cons, hstrip, hflat, windowAt_eq_take_cs]
          have h1 : ((tokens.drop start).take cs).drop ov =
              (tokens.drop (start + ov)).take (cs - ov) := by
            rw [List.drop_take, List.drop_drop]
          have h2 : tokens.drop (start + cs - ov + ov) =
              (tokens.drop (start + ov)).drop (cs - ov) := by
            rw [List.drop_drop]
            congr 1
            omega
          rw [h1, h2, List.take_append_drop]
        · intro c hc
          rcases List.mem_cons.mp hc with hc | hc
          · subst hc
            exact ⟨start, hs, hovw, htokc⟩
          · exact hshape c hc

/-- Full characterization of a terminating `splitIntoChunks` run with valid
parameters: the run completes, reconstruction recovers the token sequence,
the first chunk is its unmarked window and every later chunk is a marked
window. -/
theorem splitIntoChunks_spec (text : List Char) (cs ov : Nat)
    (hcs : 0 < cs) (hov : ov < cs) :
    ∃ chunks, splitIntoChunks text cs ov = some chunks ∧
      reconstruct ov chunks = tokenize text ∧
      (∀ c, chunks.head? = some c → tokenize c = windowAt cs (tokenize text) 0) ∧
      ∀ c ∈ chunks.tail, ∃ s, 0 < s ∧ ov < (windowAt cs (tokenize text) s).length ∧
        tokenize c = markerStart :: ((windowAt cs (tokenize text) s).take ov ++
          markerEnd :: (windowAt cs (tokenize text) s).drop ov) := by
  unfold splitIntoChunks
  have hgood : ∀ t ∈ tokenize text, goodTok t := tokenize_good
  by_cases h0 : (tokenize text).length = 0
  · rw [splitAux_succ, if_neg (by omega)]
    refine ⟨[], rfl, ?_, by simp, by simp⟩
    have : tokenize text = [] := List.length_eq_zero.mp h0
    simp [reconstruct, this]
  · rw [splitAux_succ, if_pos (by omega)]
    have hchunk0 : chunkAt cs ov (tokenize text) 0 =
        joinTokens (windowAt cs (tokenize text) 0) := by
      unfold chunkAt
      rw [if_neg (by simp)]
    have htok0 : tokenize (chunkAt cs ov (tokenize text) 0) =
        windowAt cs (tokenize text) 0 := by
      rw [hchunk0]
      exact tokenize_joinTokens (windowAt_good hgood cs 0)
    by_cases hend : min (0 + cs) (tokenize text).length = (tokenize text).length
    · rw [if_pos hend]
      refine ⟨[chunkAt cs ov (tokenize text) 0], rfl, ?_, ?_, by simp⟩
      · simp only [reconstruct, List.map_nil, List.flatten_nil, List.append_nil]
        rw [htok0, windowAt_eq_take_cs, List.drop_zero]
        exact List.take_of_length_le (by omega)
      · intro c hc
        simp only [List.head?_cons, Option.some_inj] at hc
        subst hc
        exact htok0
    · have hmin : min (0 + cs) (tokenize text).length = cs := by omega
      obtain ⟨rest, hrest, hflat, hshape⟩ :=
        splitAux_suffix hgood hov (tokenize text).length (cs - ov)
          (by omega) (by omega) (by omega)
      rw [if_neg hend, hmin, hrest]
      refine ⟨chunkAt cs ov (tokenize text) 0 :: rest, rfl, ?_, ?_, ?_⟩
      · simp only [reconstruct]
        rw [htok0, hflat, windowAt_eq_take_cs, List.drop_zero]
        have heq : cs - ov + ov = cs := by omega
        rw [heq, List.take_append_drop]
      · intro c hc
        simp only [List.head?_cons, Option.some_inj] at hc
        subst hc
        exact htok0
      · intro c hc
        exact hshape c hc

/-- C1: for every text, `chunkSize > 0` and `0 ≤ overlap < chunkSize`,
stripping the overlap markers and the overlap-duplicated tokens from chunks
2..n of `splitIntoChunks` and concatenating after chunk 1 yields exactly the
whitespace-token sequence of the original text. -/
theorem splitIntoChunks_reconstructs (text : List Char) (cs ov : Nat)
    (hcs : 0 < cs) (hov : ov < cs) :
    ∃ chunks, splitIntoChunks text cs ov = some chunks ∧
      reconstruct ov chunks = tokenize text := by
  obtain ⟨chunks, h1, h2, -, -⟩ := splitIntoChunks_spec text cs ov hcs hov
  exact ⟨chunks, h1, h2⟩

/-- Witness for C1 at `text = "a b c"`, `chunkSize = 2`, `overlap = 1`. -/
theorem splitIntoChunks_reconstructs_witness :
    (0 < 2 ∧ 1 < 2) ∧
      ∃ chunks, splitIntoChunks "a b c".toList 2 1 = some chunks ∧
        reconstruct 1 chunks = tokenize "a b c".toList :=
  ⟨⟨by decide, by decide⟩,
    splitIntoChunks_reconstructs "a b c".toList 2 1 (by decide) (by decide)⟩

/-- C2: `splitIntoChunks` has no parameter guard whatsoever.  On
`chunkSize = overlap` (here both 1) with more than `chunkSize` tokens the
advance `start = end - overlap` never moves, so the `while` loop runs
forever: the fuelled embedding of the loop returns `none` for every fuel
bound, i.e. the source never raises a `ConfigError` and never returns a
chunk sequence. -/
theorem splitIntoChunks_diverges_on_equal_overlap :
    ∀ fuel, splitAux 1 1 (tokenize "a b c".toList) fuel 0 = none := by
  intro fuel
  induction fuel with
  | zero => rfl
  | succ fuel ih =>
      rw [splitAux_succ, if_pos (by decide), if_neg (by decide),
        show min (0 + 1) (tokenize "a b c".toList).length - 1 = 0 by decide, ih]

/-- Token `tᵢ` of the spec's end-to-end example. -/
def tok (n : Nat) : List Char := 't' :: Nat.toDigits 10 n

/-- The example input: tokens `t1 .. t25` joined by single spaces. -/
def text25 : List Char := joinTokens ((List.range 25).map (fun i => tok (i + 1)))

/-- Counterexample to C3 as stated: on `t1..t25`, `chunkSize = 10`,
`overlap = 3`, the result is NOT the claimed list whose final chunk is the
unmarked `"t22 t23 t24 t25"` — the code marks the final window as well,
because its 4 tokens exceed the overlap of 3. -/
theorem splitIntoChunks_example25_claim_false :
    splitIntoChunks text25 10 3 ≠
      some [joinTokens ((List.range' 1 10).map tok),
        mkMarked ((List.range' 8 3).map tok) ((List.range' 11 7).map tok),
        mkMarked ((List.range' 15 3).map tok) ((List.range' 18 7).map tok),
        joinTokens ((List.range' 22 4).map tok)] := by
  decide

/-- C3 amended: chunk 1 is tokens 1-10 unmarked, chunk 2 covers 8-17 with
8-10 marked, chunk 3 covers 15-24 with 15-17 marked, and the final chunk
covers 22-25 WITH tokens 22-24 wrapped as overlap and 25 plain. -/
theorem splitIntoChunks_example25 :
    splitIntoChunks text25 10 3 =
      some [joinTokens ((List.range' 1 10).map tok),
        mkMarked ((List.range' 8 3).map tok) ((List.range' 11 7).map tok),
        mkMarked ((List.range' 15 3).map tok) ((List.range' 18 7).map tok),
        mkMarked ((List.range' 22 3).map tok) ((List.range' 25 1).map tok)] := by
  decide

/-- C10: every non-initial chunk is a marked window: its token sequence is
the window with the two marker literals added, so `countTokens` on it gives
the window size plus 2, which reaches `chunkSize + 2` (attained on the
`t1..t25` example); only the first chunk is guaranteed to stay within
`chunkSize` tokens. -/
theorem countTokens_of_chunks :
    (∀ (text : List Char) (cs ov : Nat), 0 < cs → ov < cs →
      ∀ chunks, splitIntoChunks text cs ov = some chunks →
        (∀ c ∈ chunks.tail, ∃ s, 0 < s ∧
          ov < (windowAt cs (tokenize text) s).length ∧
          (windowAt cs (tokenize text) s).length ≤ cs ∧
          tokenize c = markerStart :: ((windowAt cs (tokenize text) s).take ov ++
            markerEnd :: (windowAt cs (tokenize text) s).drop ov) ∧
          countTokens c = (windowAt cs (tokenize text) s).length + 2 ∧
          countTokens c ≤ cs + 2) ∧
        ∀ c, chunks.head? = some c → countTokens c ≤ cs) ∧
      ∃ chunks c, splitIntoChunks text25 10 3 = some chunks ∧
        chunks.tail.head? = some c ∧ countTokens c = 10 + 2 := by
  constructor
  · intro text cs ov hcs hov chunks hchunks
    obtain ⟨chunks', h1, -, hhead, htail⟩ := splitIntoChunks_spec text cs ov hcs hov
    rw [hchunks] at h1
    obtain rfl : chunks = chunks' := by injection h1
    constructor
    · intro c hc
      obtain ⟨s, hs, hovw, hshape⟩ := htail c hc
      have hwle : (windowAt cs (tokenize text) s).length ≤ cs := by
        rw [windowAt_length]
        omega
      refine ⟨s, hs, hovw, hwle, hshape, ?_, ?_⟩
      · unfold countTokens
        rw [hshape]
        simp only [List.length_cons, List.length_append, List.length_take,
          List.length_drop]
        omega
      · unfold countTokens
        rw [hshape]
        simp only [List.length_cons, List.length_append, List.length_take,
          List.length_drop]
        omega
    · intro c hc
      have := hhead c hc
      unfold countTokens
      rw [this, windowAt_length]
      omega
  · exact ⟨[joinTokens ((List.range' 1 10).map tok),
      mkMarked ((List.range' 8 3).map tok) ((List.range' 11 7).map tok),
      mkMarked ((List.range' 15 3).map tok) ((List.range' 18 7).map tok),
      mkMarked ((List.range' 22 3).map tok) ((List.range' 25 1).map tok)],
      mkMarked ((List.range' 8 3).map tok) ((List.range' 11 7).map tok),
      splitIntoChunks_example25, by decide, by decide⟩

/-- Witness for C10 at `text = "a b c"`, `chunkSize = 2`, `overlap = 1`:
the second chunk is `<OVERLAP_START> b <OVERLAP_END> c` with 4 = 1 + 1 + 2
tokens, and the first chunk has 2 ≤ chunkSize tokens. -/
theorem countTokens_of_chunks_witness :
    (0 < 2 ∧ 1 < 2 ∧
        splitIntoChunks "a b c".toList 2 1 =
          some ["a b".toList, "<OVERLAP_START> b <OVERLAP_END> c".toList]) ∧
      (∀ c ∈ ["a b".toList, "<OVERLAP_START> b <OVERLAP_END> c".toList].tail,
        ∃ s, 0 < s ∧ 1 < (windowAt 2 (tokenize "a b c".toList) s).length ∧
          (windowAt 2 (tokenize "a b c".toList) s).length ≤ 2 ∧
          tokenize c = markerStart ::
            ((windowAt 2 (tokenize "a b c".toList) s).take 1 ++
              markerEnd :: (windowAt 2 (tokenize "a b c".toList) s).drop 1) ∧
          countTokens c = (windowAt 2 (tokenize "a b c".toList) s).length + 2 ∧
          countTokens c ≤ 2 + 2) ∧
      ∀ c, ["a b".toList, "<OVERLAP_START> b <OVERLAP_END> c".toList].head? = some c →
        countTokens c ≤ 2 :=
  ⟨⟨by decide, by decide, by decide⟩,
    (countTokens_of_chunks.1 "a b c".toList 2 1 (by decide) (by decide)
      ["a b".toList, "<OVERLAP_START> b <OVERLAP_END> c".toList] (by decide))⟩

/-! ## File-name parsing and grouping (stitchCleaned.ts lines 14-58,
stich.ts lines 44-62)

Both scripts match file names against `/^(.*)-(\d+)\.<ext>$/` with a greedy
`(.*)`: a name matches iff it ends in `.<ext>`, the part before that suffix
ends in a nonempty digit run, and the character before that digit run is a
dash; the base name is everything before that dash.  (`.` in the regex does
not match line terminators, so a would-be base name containing one fails
the match.) -/

/-- ASCII digit test (`\d`). -/
def isDigit (c : Char) : Bool := '0' ≤ c && c ≤ '9'

/-- JS line terminators, which `.` does not match. -/
def isLineTerm (c : Char) : Bool :=
  c = '\n' || c = '\r' || c.toNat = 0x2028 || c.toNat = 0x2029

/-- `parseInt(digits, 10)` on an all-digit string. -/
def digitsToNat (ds : List Char) : Nat :=
  ds.foldl (fun n c => 10 * n + (c.toNat - '0'.toNat)) 0

/-- Match `name` against `/^(.*)-(\d+)\.<ext>$/` (with `ext` the literal
extension characters, e.g. `json`): returns the captured base name and the
parsed chunk number. -/
def parseChunkName (ext name : List Char) : Option (List Char × Nat) :=
  let rev := name.reverse
  let extRev := ('.' :: ext).reverse
  if extRev = rev.take extRev.length ∧ extRev.length ≤ rev.length then
    let s := rev.drop extRev.length
    let ds := s.takeWhile isDigit
    match ds, s.dropWhile isDigit with
    | [], _ => none
    | _ :: _, [] => none
    | _ :: _, h :: t =>
        if h = '-' ∧ t.all (fun c => !isLineTerm c) then
          some (t.reverse, digitsToNat ds.reverse)
        else none
  else none

/-- One cleaned-chunk record of stitchCleaned.ts (its `Chunk` interface):
`chunkNumber`, `cleanedText`, and any further JSON keys carried opaquely as
key/value pairs of strings. -/
@[ext]
structure Chunk where
  chunkNumber : Int
  cleanedText : List Char
  extra : List (List Char × List Char)
deriving DecidableEq, Repr

/-- What reading and JSON-parsing one input file of the re-indexer can
yield (stitchCleaned.ts lines 70-96): a read failure, a JSON parse failure,
a JSON value without a `chunks` array, or a `chunks` array. -/
inductive RecordContent where
  | unreadable : RecordContent
  | badJson : RecordContent
  | noChunksArray : RecordContent
  | chunksArr : List Chunk → RecordContent
deriving DecidableEq

/-- The chunks a record contributes to its group (stitchCleaned.ts lines
70-96: every failure case contributes nothing and only logs). -/
def contentChunks : RecordContent → List Chunk
  | .chunksArr cs => cs
  | _ => []

/-- Whether a record's content is a `chunks` array. -/
def isChunksArr : RecordContent → Bool
  | .chunksArr _ => true
  | _ => false

/-- Comparison used by both scripts' `files.sort((a, b) => a.chunkNum -
b.chunkNum)`: ascending by the numeric index. -/
def keyLE {α : Type} (a b : Nat × α) : Prop := a.1 ≤ b.1

instance {α : Type} : DecidableRel (@keyLE α) := fun a b => Nat.decLe a.1 b.1

instance {α : Type} : IsTotal (Nat × α) keyLE := ⟨fun a b => Nat.le_total a.1 b.1⟩

instance {α : Type} : IsTrans (Nat × α) keyLE := ⟨fun _ _ _ => Nat.le_trans⟩

/-- JS `Array.prototype.sort` is a stable ascending sort; a stable insertion
sort produces the identical list. -/
def sortByNum {α : Type} (l : List (Nat × α)) : List (Nat × α) :=
  List.insertionSort keyLE l

/-- Append a parsed record to its base name's group, preserving JS `Map`
insertion order (stitchCleaned.ts lines 54-57, stich.ts lines 53-56). -/
def addToGroup {α : Type} : List (List Char × List α) → List Char → α →
    List (List Char × List α)
  | [], base, v => [(base, [v])]
  | (b, vs) :: rest, base, v =>
      if b = base then (b, vs ++ [v]) :: rest
      else (b, vs) :: addToGroup rest base v

/-- One grouping step of the re-indexer (stitchCleaned.ts lines 44-58): a
record whose name fails the `/^(.*)-(\d+)\.json$/` pattern is skipped with a
warning; otherwise it is appended to its base name's group. -/
def groupStep (groups : List (List Char × List (Nat × RecordContent)))
    (r : List Char × RecordContent) :
    List (List Char × List (Nat × RecordContent)) :=
  match parseChunkName "json".toList r.1 with
  | none => groups
  | some (base, num) => addToGroup groups base (num, r.2)

/-- Grouping loop of the re-indexer over all input records. -/
def groupRecords (records : List (List Char × RecordContent)) :
    List (List Char × List (Nat × RecordContent)) :=
  records.foldl groupStep []

/-- Merge one group's records (stitchCleaned.ts lines 64-97): sort by the
numeric index, then concatenate the `chunks` arrays; records without one
contribute nothing. -/
def mergeGroup (entries : List (Nat × RecordContent)) : List Chunk :=
  ((sortByNum entries).map (fun e => contentChunks e.2)).flatten

/-- Re-numbering (stitchCleaned.ts lines 99-103):
`mergedChunks.map((chunk, index) => ({...chunk, chunkNumber: index + 1}))`. -/
def reindexChunks (cs : List Chunk) : List Chunk :=
  cs.enum.map (fun p => { p.2 with chunkNumber := (p.1 : Int) + 1 })

/-- Full per-group processing of the re-indexer. -/
def processGroup (entries : List (Nat × RecordContent)) : List Chunk :=
  reindexChunks (mergeGroup entries)

/-! ### Re-indexer lemmas -/

theorem orderedInsert_map_snd {α β : Type} (g : α → β) (x : Nat × α) :
    ∀ l : List (Nat × α),
      List.orderedInsert keyLE (x.1, g x.2) (l.map (fun e => (e.1, g e.2))) =
        (List.orderedInsert keyLE x l).map (fun e => (e.1, g e.2)) := by
  intro l
  induction l with
  | nil => rfl
  | cons y l ih =>
      simp only [List.map_cons, List.orderedInsert]
      by_cases h : keyLE x y
      · rw [if_pos h, if_pos (show keyLE (x.1, g x.2) (y.1, g y.2) from h),
          List.map_cons, List.map_cons]
      · rw [if_neg h, if_neg (show ¬keyLE (x.1, g x.2) (y.1, g y.2) from h),
          List.map_cons, ih]

theorem sortByNum_map_snd {α β : Type} (g : α → β) :
    ∀ l : List (Nat × α),
      sortByNum (l.map (fun e => (e.1, g e.2))) =
        (sortByNum l).map (fun e => (e.1, g e.2)) := by
  intro l
  induction l with
  | nil => rfl
  | cons x l ih =>
      unfold sortByNum at *
      rw [List.map_cons, List.insertionSort, List.insertionSort, ih,
        orderedInsert_map_snd]

theorem sortByNum_sorted {α : Type} (l : List (Nat × α)) :
    List.Sorted keyLE (sortByNum l) :=
  List.sorted_insertionSort keyLE l

theorem sortByNum_perm {α : Type} (l : List (Nat × α)) :
    (sortByNum l).Perm l :=
  List.perm_insertionSort keyLE l

theorem reindexChunks_map_chunkNumber (cs : List Chunk) :
    (reindexChunks cs).map Chunk.chunkNumber =
      (List.range cs.length).map (fun i : Nat => (i : Int) + 1) := by
  unfold reindexChunks
  rw [List.map_map]
  have : (Chunk.chunkNumber ∘ fun p : Nat × Chunk =>
      { p.2 with chunkNumber := (p.1 : Int) + 1 }) =
      ((fun i : Nat => (i : Int) + 1) ∘ (Prod.fst : Nat × Chunk → Nat)) := rfl
  rw [this, ← List.map_map, List.enum_map_fst]

theorem reindexChunks_map_payload (cs : List Chunk) :
    (reindexChunks cs).map (fun c => (c.cleanedText, c.extra)) =
      cs.map (fun c => (c.cleanedText, c.extra)) := by
  unfold reindexChunks
  rw [List.map_map]
  have : ((fun c : Chunk => (c.cleanedText, c.extra)) ∘ fun p : Nat × Chunk =>
      { p.2 with chunkNumber := (p.1 : Int) + 1 }) =
      ((fun c : Chunk => (c.cleanedText, c.extra)) ∘
        (Prod.snd : Nat × Chunk → Chunk)) := rfl
  rw [this, ← List.map_map, List.enum_map_snd]

/-- C4: on a group of well-formed records the re-indexer sorts by numeric
source index, flattens the sub-chunk lists in that order, and assigns
`chunkNumber` the values `1..N` in flattened order, ignoring the input
`chunkNumber`s. -/
theorem reindexer_sorts_flattens_renumbers (entries : List (Nat × List Chunk)) :
    ∃ sorted : List (Nat × List Chunk),
      sorted.Perm entries ∧
      List.Sorted (· ≤ ·) (sorted.map Prod.fst) ∧
      processGroup (entries.map (fun e => (e.1, RecordContent.chunksArr e.2))) =
        reindexChunks ((sorted.map Prod.snd).flatten) ∧
      (processGroup (entries.map (fun e => (e.1, RecordContent.chunksArr e.2)))).map
          Chunk.chunkNumber =
        (List.range ((sorted.map Prod.snd).flatten).length).map
          (fun i : Nat => (i : Int) + 1) ∧
      (processGroup (entries.map (fun e => (e.1, RecordContent.chunksArr e.2)))).map
          (fun c => (c.cleanedText, c.extra)) =
        ((sorted.map Prod.snd).flatten).map (fun c => (c.cleanedText, c.extra)) := by
  have hproc : processGroup (entries.map (fun e => (e.1, RecordContent.chunksArr e.2))) =
      reindexChunks (((sortByNum entries).map Prod.snd).flatten) := by
    unfold processGroup mergeGroup
    rw [sortByNum_map_snd, List.map_map]
    rfl
  refine ⟨sortByNum entries, sortByNum_perm entries, ?_, hproc, ?_, ?_⟩
  · have := sortByNum_sorted entries
    exact List.pairwise_map.mpr this
  · rw [hproc, reindexChunks_map_chunkNumber]
  · rw [hproc, reindexChunks_map_payload]

/-- C5: re-indexing a single group holding one source record whose chunk
list is already numbered `1..k` returns the identical chunk list. -/
theorem reindexer_idempotent (cs : List Chunk)
    (h : ∀ i (hi : i < cs.length), (cs.get ⟨i, hi⟩).chunkNumber = (i : Int) + 1) :
    processGroup [(1, RecordContent.chunksArr cs)] = cs := by
  have hmerge : mergeGroup [(1, RecordContent.chunksArr cs)] = cs := by
    unfold mergeGroup sortByNum
    simp [List.insertionSort, contentChunks]
  rw [processGroup, hmerge]
  unfold reindexChunks
  apply List.ext_get
  · simp
  · intro n h1 h2
    have hn : n < cs.length := by simpa using h2
    have henum : n < cs.enum.length := by simpa using hn
    rw [List.get_eq_getElem, List.get_eq_getElem, List.getElem_map,
      List.getElem_enum]
    ext
    · simpa using (h n hn).symm
    · rfl
    · rfl

/-- Witness for C5 on a concrete two-chunk list numbered 1, 2. -/
theorem reindexer_idempotent_witness :
    (∀ i (hi : i < ([⟨1, ['a'], []⟩, ⟨2, ['b'], []⟩] : List Chunk).length),
        (([⟨1, ['a'], []⟩, ⟨2, ['b'], []⟩] : List Chunk).get ⟨i, hi⟩).chunkNumber =
          (i : Int) + 1) ∧
      processGroup [(1, RecordContent.chunksArr [⟨1, ['a'], []⟩, ⟨2, ['b'], []⟩])] =
        [⟨1, ['a'], []⟩, ⟨2, ['b'], []⟩] :=
  ⟨by decide, reindexer_idempotent [⟨1, ['a'], []⟩, ⟨2, ['b'], []⟩] (by decide)⟩

/-! ### Error tolerance of the re-indexer (C8) -/

theorem flatten_map_of_filter {α β : Type} (g : α → List β) (p : α → Bool)
    (hg : ∀ x, p x = false → g x = []) :
    ∀ l : List α, (l.map g).flatten = ((l.filter p).map g).flatten := by
  intro l
  induction l with
  | nil => rfl
  | cons x l ih =>
      rw [List.map_cons, List.flatten_cons, List.filter_cons]
      by_cases h : p x = true
      · rw [if_pos h, List.map_cons, List.flatten_cons, ih]
      · rw [if_neg h, hg x (by simpa using h), List.nil_append, ih]

theorem orderedInsert_of_forall_le {α : Type} {x : Nat × α} :
    ∀ {l : List (Nat × α)}, (∀ z ∈ l, keyLE x z) →
      List.orderedInsert keyLE x l = x :: l := by
  intro l h
  cases l with
  | nil => rfl
  | cons y t =>
      rw [List.orderedInsert, if_pos (h y (List.mem_cons_self _ _))]

/-- Stability: filtering commutes with inserting into a sorted list. -/
theorem filter_orderedInsert {α : Type} (p : Nat × α → Bool) (x : Nat × α) :
    ∀ l : List (Nat × α), List.Sorted keyLE l →
      (List.orderedInsert keyLE x l).filter p =
        if p x then List.orderedInsert keyLE x (l.filter p) else l.filter p := by
  intro l
  induction l with
  | nil =>
      intro _
      by_cases hpx : p x = true <;>
        simp [List.orderedInsert, List.filter_cons, hpx]
  | cons y t ih =>
      intro hs
      obtain ⟨hy, ht⟩ := List.sorted_cons.mp hs
      by_cases hxy : keyLE x y
      · rw [List.orderedInsert, if_pos hxy, List.filter_cons]
        by_cases hpx : p x = true
        · rw [if_pos hpx, if_pos hpx]
          refine (orderedInsert_of_forall_le ?_).symm
          intro z hz
          have hz' : z ∈ y :: t := List.mem_of_mem_filter hz
          rcases List.mem_cons.mp hz' with rfl | hzt
          · exact hxy
          · exact Nat.le_trans hxy (hy z hzt)
        · rw [if_neg hpx, if_neg hpx]
      · rw [List.orderedInsert, if_neg hxy, List.filter_cons, List.filter_cons]
        by_cases hpy : p y = true
        · rw [if_pos hpy, if_pos hpy, ih ht]
          by_cases hpx : p x = true
          · rw [if_pos hpx, if_pos hpx, List.orderedInsert, if_neg hxy]
          · rw [if_neg hpx, if_neg hpx]
        · rw [if_neg hpy, if_neg hpy, ih ht]

/-- The stable ascending sort commutes with filtering. -/
theorem filter_sortByNum {α : Type} (p : Nat × α → Bool) :
    ∀ l : List (Nat × α), (sortByNum l).filter p = sortByNum (l.filter p) := by
  intro l
  induction l with
  | nil => rfl
  | cons x l ih =>
      unfold sortByNum at *
      rw [List.insertionSort,
        filter_orderedInsert p x _ (List.sorted_insertionSort keyLE l), ih,
        List.filter_cons]
      by_cases hpx : p x = true
      · rw [if_pos hpx, if_pos hpx, List.insertionSort]
      · rw [if_neg hpx, if_neg hpx]

/-- C8: an input record whose name fails the `<baseName>-<index>.json`
pattern, or whose content is unreadable, fails JSON parsing or lacks a
`chunks` array, contributes nothing: grouping ignores unparsable names, and
every group's merged output equals the output on the good records alone
(the model functions are total, so no such record aborts a run). -/
theorem reindexer_tolerates_bad_records :
    (∀ records : List (List Char × RecordContent),
      groupRecords records =
        groupRecords (records.filter
          (fun r => (parseChunkName "json".toList r.1).isSome))) ∧
    ∀ entries : List (Nat × RecordContent),
      processGroup entries =
        processGroup (entries.filter (fun e => isChunksArr e.2)) := by
  constructor
  · intro records
    unfold groupRecords
    have key : ∀ (rs : List (List Char × RecordContent))
        (groups : List (List Char × List (Nat × RecordContent))),
        rs.foldl groupStep groups =
          (rs.filter (fun r => (parseChunkName "json".toList r.1).isSome)).foldl
            groupStep groups := by
      intro rs
      induction rs with
      | nil => intro groups; rfl
      | cons r rs ih =>
          intro groups
          rw [List.foldl_cons, List.filter_cons]
          by_cases hp : (parseChunkName "json".toList r.1).isSome = true
          · rw [if_pos hp, List.foldl_cons, ih]
          · have hnone : parseChunkName "json".toList r.1 = none :=
              Option.not_isSome_iff_eq_none.mp (by simpa using hp)
            have hstep : groupStep groups r = groups := by
              unfold groupStep
              rw [hnone]
            rw [if_neg hp, hstep, ih]
    exact key records []
  · intro entries
    unfold processGroup mergeGroup
    rw [flatten_map_of_filter (fun e => contentChunks e.2)
        (fun e => isChunksArr e.2) ?useless (sortByNum entries),
      filter_sortByNum]
    case useless =>
      intro x hx
      have hx' : isChunksArr x.2 = false := hx
      show contentChunks x.2 = []
      cases hc : x.2 with
      | chunksArr cs =>
          rw [hc] at hx'
          simp [isChunksArr] at hx'
      | unreadable => rfl
      | badJson => rfl
      | noChunksArray => rfl

/-! ## Output naming and stitching (stich.ts lines 64-105,
stitchCleaned.ts lines 105-128) -/

/-- ASCII case folding; `".txt"` is pure ASCII and no character outside
`A`-`Z` lowercases to one of `.`, `t`, `x`, so this decides
`toLowerCase().endsWith(".txt")` exactly. -/
def lowerChar (c : Char) : Char :=
  if 'A' ≤ c ∧ c ≤ 'Z' then Char.ofNat (c.toNat + 32) else c

/-- `s.toLowerCase().endsWith(suffix)` for an already-lowercase suffix. -/
def endsWithLower (s suffix : List Char) : Bool :=
  if suffix.length ≤ s.length then
    (s.map lowerChar).drop (s.length - suffix.length) == suffix
  else false

/-- The designated text extension. -/
def txtExt : List Char := ".txt".toList

/-- Output naming used identically by the stitcher (stich.ts lines 88-92)
and the re-indexer (stitchCleaned.ts lines 108-111): append `".txt"` unless
the lower-cased name already ends with it. -/
def finalizeName (s : List Char) : List Char :=
  if endsWithLower s txtExt then s else s ++ txtExt

/-- `path.parse(baseName).name` (stich.ts lines 84-85): the name with its
final extension removed; a dot-free name, or one whose only dot starts it,
is kept whole.  (The names handled here are plain file names without
directory separators.) -/
def headerOf (s : List Char) : List Char :=
  let rev := s.reverse
  let afterDot := rev.takeWhile (fun c => c ≠ '.')
  if afterDot.length = rev.length then s
  else if afterDot.length + 1 = rev.length then s
  else (rev.drop (afterDot.length + 1)).reverse

/-- Stitch one group (stich.ts lines 68-86): sort the files numerically by
chunk number, append each content followed by `"\n"`, and prepend the
header line and a blank line. -/
def stitchGroup (baseName : List Char) (files : List (Nat × List Char)) :
    List Char :=
  headerOf baseName ++ '\n' :: '\n' ::
    ((sortByNum files).map (fun f => f.2 ++ ['\n'])).flatten

/-- One written output: its file name, the content written, and the length
recorded for it in StitchMetadata. -/
structure WrittenFile where
  name : List Char
  content : List Char
  recordedLength : Nat
deriving DecidableEq

/-- Per-group output of the stitcher (stich.ts lines 88-98): the stitched
text is written and its own character count is recorded. -/
def stitchGroupOutput (baseName : List Char) (files : List (Nat × List Char)) :
    WrittenFile :=
  { name := finalizeName baseName
    content := stitchGroup baseName files
    recordedLength := (stitchGroup baseName files).length }

/-! ### JSON serialization (stitchCleaned.ts lines 113-128)

The re-indexer writes `JSON.stringify(finalJSON, null, 2)` but records
`JSON.stringify(finalJSON).length`.  Both serializations are embedded below
for the `{ chunks: [...] }` value shape; keys are emitted in the fixed order
`chunkNumber`, `cleanedText`, then the opaque extra pairs. -/

/-- Hexadecimal digit (lower case, as `JSON.stringify` emits). -/
def hexDigit (n : Nat) : Char :=
  if n < 10 then Char.ofNat ('0'.toNat + n) else Char.ofNat ('a'.toNat + (n - 10))

/-- `JSON.stringify` escaping of one character. -/
def escChar (c : Char) : List Char :=
  if c = '"' then ['\\', '"']
  else if c = '\\' then ['\\', '\\']
  else if c = '\x08' then ['\\', 'b']
  else if c = '\x0c' then ['\\', 'f']
  else if c = '\n' then ['\\', 'n']
  else if c = '\r' then ['\\', 'r']
  else if c = '\t' then ['\\', 't']
  else if c.toNat < 0x20 then
    '\\' :: 'u' :: '0' :: '0' :: hexDigit (c.toNat / 16) :: [hexDigit (c.toNat % 16)]
  else [c]

/-- A JSON string literal. -/
def jsonOfString (s : List Char) : List Char :=
  '"' :: (s.map escChar).flatten ++ ['"']

/-- Decimal rendering of a JSON number (the integers occurring here). -/
def intToChars (i : Int) : List Char :=
  if i < 0 then '-' :: Nat.toDigits 10 i.natAbs else Nat.toDigits 10 i.natAbs

/-- Join pieces with a separator (used for `,`-separated JSON members). -/
def joinWith (sep : List Char) : List (List Char) → List Char
  | [] => []
  | [x] => x
  | x :: xs => x ++ sep ++ joinWith sep xs

/-- `n` spaces of indentation. -/
def indentN (n : Nat) : List Char := List.replicate n ' '

/-- The members of one serialized chunk object, compact form. -/
def chunkFieldsCompact (c : Chunk) : List (List Char) :=
  (jsonOfString "chunkNumber".toList ++ ':' :: intToChars c.chunkNumber) ::
    (jsonOfString "cleanedText".toList ++ ':' :: jsonOfString c.cleanedText) ::
    c.extra.map (fun kv => jsonOfString kv.1 ++ ':' :: jsonOfString kv.2)

/-- The members of one serialized chunk object, pretty form
(`": "` separator). -/
def chunkFieldsPretty (c : Chunk) : List (List Char) :=
  (jsonOfString "chunkNumber".toList ++ ':' :: ' ' :: intToChars c.chunkNumber) ::
    (jsonOfString "cleanedText".toList ++ ':' :: ' ' :: jsonOfString c.cleanedText) ::
    c.extra.map (fun kv => jsonOfString kv.1 ++ ':' :: ' ' :: jsonOfString kv.2)

/-- `JSON.stringify(chunk)`. -/
def chunkCompact (c : Chunk) : List Char :=
  '{' :: joinWith [','] (chunkFieldsCompact c) ++ ['}']

/-- `JSON.stringify(chunk, null, 2)` as nested at indentation `ind`. -/
def chunkPretty (ind : Nat) (c : Chunk) : List Char :=
  '{' :: '\n' ::
    joinWith (',' :: ['\n']) ((chunkFieldsPretty c).map (fun f => indentN (ind + 2) ++ f)) ++
    '\n' :: indentN ind ++ ['}']

/-- `JSON.stringify({chunks: cs})`. -/
def serializeCompact (cs : List Chunk) : List Char :=
  '{' :: jsonOfString "chunks".toList ++ ':' :: '[' ::
    joinWith [','] (cs.map chunkCompact) ++ ']' :: ['}']

/-- `JSON.stringify({chunks: cs}, null, 2)` in Node's layout. -/
def serializePretty (cs : List Chunk) : List Char :=
  '{' :: '\n' :: indentN 2 ++ jsonOfString "chunks".toList ++ ':' :: ' ' ::
    (match cs with
      | [] => '[' :: [']']
      | _ => '[' :: '\n' ::
          joinWith (',' :: ['\n']) (cs.map (fun c => indentN 4 ++ chunkPretty 4 c)) ++
          '\n' :: indentN 2 ++ [']']) ++
    '\n' :: ['}']

/-- Per-group output of the re-indexer (stitchCleaned.ts lines 105-128): the
pretty-printed JSON is written, while the length of the COMPACT
serialization is recorded (`JSON.stringify(finalJSON).length`). -/
def reindexGroupOutput (baseName : List Char)
    (entries : List (Nat × RecordContent)) : WrittenFile :=
  { name := finalizeName baseName
    content := serializePretty (processGroup entries)
    recordedLength := (serializeCompact (processGroup entries)).length }

/-! ### Ordering (C6) -/

theorem sorted_lt_of_sorted_nodup {α : Type} {l : List (Nat × α)}
    (hs : List.Sorted keyLE l) (hnd : (l.map Prod.fst).Nodup) :
    List.Sorted (fun a b : Nat × α => a.1 < b.1) l := by
  have h1 : l.Pairwise (fun a b : Nat × α => a.1 ≤ b.1) := hs
  have h2 : l.Pairwise (fun a b : Nat × α => a.1 ≠ b.1) := List.pairwise_map.mp hnd
  exact (h1.and h2).imp (fun h => Nat.lt_of_le_of_ne h.1 h.2)

/-- With pairwise-distinct numeric keys, any two permuted inputs sort to the
identical list. -/
theorem sortByNum_eq_of_perm {α : Type} {l₁ l₂ : List (Nat × α)}
    (hnd : (l₁.map Prod.fst).Nodup) (hp : l₁.Perm l₂) :
    sortByNum l₁ = sortByNum l₂ := by
  have hnd₂ : (l₂.map Prod.fst).Nodup := ((hp.map Prod.fst).nodup_iff).mp hnd
  have hperm : (sortByNum l₁).Perm (sortByNum l₂) :=
    ((sortByNum_perm l₁).trans hp).trans (sortByNum_perm l₂).symm
  have hnds₁ : ((sortByNum l₁).map Prod.fst).Nodup :=
    (((sortByNum_perm l₁).map Prod.fst).nodup_iff).mpr hnd
  have hnds₂ : ((sortByNum l₂).map Prod.fst).Nodup :=
    (((sortByNum_perm l₂).map Prod.fst).nodup_iff).mpr hnd₂
  haveI : IsAntisymm (Nat × α) (fun a b : Nat × α => a.1 < b.1) :=
    ⟨fun _ _ h1 h2 => (Nat.lt_asymm h1 h2).elim⟩
  exact List.eq_of_perm_of_sorted hperm
    (sorted_lt_of_sorted_nodup (sortByNum_sorted l₁) hnds₁)
    (sorted_lt_of_sorted_nodup (sortByNum_sorted l₂) hnds₂)

/-- C6: for a group of chunks with pairwise-distinct indices the stitcher
sorts numerically ascending, so the stitched text is independent of the
presentation order of the chunks. -/
theorem stitcher_order_independent (base : List Char)
    (files files' : List (Nat × List Char))
    (hnd : (files.map Prod.fst).Nodup) (hperm : files.Perm files') :
    stitchGroup base files = stitchGroup base files' := by
  unfold stitchGroup
  rw [sortByNum_eq_of_perm hnd hperm]

/-- Witness for C6: presenting indices `[3,1,2]` stitches identically to
`[1,2,3]`, and the numeric sort puts index 10 after index 2. -/
theorem stitcher_order_independent_witness :
    ((([(3, "c".toList), (1, "a".toList), (2, "b".toList)] :
          List (Nat × List Char)).map Prod.fst).Nodup ∧
      ([(3, "c".toList), (1, "a".toList), (2, "b".toList)] :
          List (Nat × List Char)).Perm
        [(1, "a".toList), (2, "b".toList), (3, "c".toList)] ∧
      stitchGroup "doc.pdf".toList
          [(3, "c".toList), (1, "a".toList), (2, "b".toList)] =
        stitchGroup "doc.pdf".toList
          [(1, "a".toList), (2, "b".toList), (3, "c".toList)]) ∧
      sortByNum [(10, "ten".toList), (2, "two".toList)] =
        [(2, "two".toList), (10, "ten".toList)] :=
  ⟨⟨by decide, by decide,
    stitcher_order_independent "doc.pdf".toList _ _ (by decide) (by decide)⟩,
    by decide⟩

/-! ### Recorded lengths (C7) -/

/-- Counterexample to C7 as stated: in the re-indexer the recorded length is
the COMPACT `JSON.stringify` length (48 here) while the written content is
the 2-space pretty-printed serialization (82 characters here). -/
theorem reindexer_recorded_length_differs :
    (reindexGroupOutput "doc.pdf".toList
        [(1, RecordContent.chunksArr [⟨5, ['a'], []⟩])]).recordedLength ≠
      (reindexGroupOutput "doc.pdf".toList
        [(1, RecordContent.chunksArr [⟨5, ['a'], []⟩])]).content.length := by
  decide

/-- C7 amended: the stitcher records exactly the character count of the
content it writes; the re-indexer records the length of the compact JSON
serialization of its output object, which differs from the character count
of the pretty-printed content it writes. -/
theorem recorded_lengths :
    (∀ (base : List Char) (files : List (Nat × List Char)),
      (stitchGroupOutput base files).recordedLength =
        (stitchGroupOutput base files).content.length) ∧
    (∀ (base : List Char) (entries : List (Nat × RecordContent)),
      (reindexGroupOutput base entries).recordedLength =
        (serializeCompact (processGroup entries)).length ∧
      (reindexGroupOutput base entries).content =
        serializePretty (processGroup entries)) ∧
    (reindexGroupOutput "doc.pdf".toList
        [(1, RecordContent.chunksArr [⟨5, ['a'], []⟩])]).recordedLength = 48 ∧
    (reindexGroupOutput "doc.pdf".toList
        [(1, RecordContent.chunksArr [⟨5, ['a'], []⟩])]).content.length = 82 :=
  ⟨fun _ _ => rfl, fun _ _ => ⟨rfl, rfl⟩, by decide, by decide⟩

/-! ### Output naming (C9) -/

theorem map_lowerChar_txt : txtExt.map lowerChar = txtExt := by decide

theorem endsWithLower_append_txt (s : List Char) :
    endsWithLower (s ++ txtExt) txtExt = true := by
  unfold endsWithLower
  rw [if_pos (by rw [List.length_append]; omega)]
  have h1 : (s ++ txtExt).length - txtExt.length = (s.map lowerChar).length := by
    rw [List.length_append, List.length_map]
    omega
  rw [List.map_append, map_lowerChar_txt, h1, List.drop_left]
  simp

/-- C9: the shared output naming appends `".txt"` exactly when the name does
not already end in it (case-insensitively), is idempotent, and never
manufactures a double `".txt.txt"` extension. -/
theorem finalizeName_spec (s : List Char) :
    finalizeName s = (if endsWithLower s txtExt then s else s ++ txtExt) ∧
    finalizeName (finalizeName s) = finalizeName s ∧
    (endsWithLower s txtExt = false →
      endsWithLower (finalizeName s) txtExt = true ∧
      endsWithLower (finalizeName s) (txtExt ++ txtExt) = false) := by
  refine ⟨rfl, ?_, ?_⟩
  · by_cases he : endsWithLower s txtExt = true
    · simp [finalizeName, he]
    · simp [finalizeName, he, endsWithLower_append_txt]
  · intro h
    have hfin : finalizeName s = s ++ txtExt := by
      unfold finalizeName
      rw [if_neg (by simp [h])]
    refine ⟨hfin ▸ endsWithLower_append_txt s, ?_⟩
    rw [hfin]
    unfold endsWithLower
    by_cases h8 : (txtExt ++ txtExt).length ≤ (s ++ txtExt).length
    · rw [if_pos h8]
      have htxt4 : txtExt.length = 4 := by decide
      have hlen4 : txtExt.length ≤ s.length := by
        rw [List.length_append, List.length_append] at h8
        omega
      have hn : (s ++ txtExt).length - (txtExt ++ txtExt).length =
          s.length - txtExt.length := by
        rw [List.length_append, List.length_append]
        omega
      have hz : s.length - txtExt.length - (s.map lowerChar).length = 0 := by
        rw [List.length_map]
        omega
      rw [hn, List.map_append, map_lowerChar_txt,
        List.drop_append_eq_append_drop, hz, List.drop_zero]
      apply beq_eq_false_iff_ne.mpr
      intro heq
      have hlens : ((s.map lowerChar).drop (s.length - txtExt.length)).length =
          txtExt.length := by
        rw [List.length_drop, List.length_map]
        omega
      obtain ⟨heq1, -⟩ := List.append_inj heq hlens
      have hcontra : endsWithLower s txtExt = true := by
        unfold endsWithLower
        rw [if_pos hlen4]
        exact beq_iff_eq.mpr heq1
      rw [h] at hcontra
      exact Bool.false_ne_true hcontra
    · rw [if_neg h8]

/-- Witness for C9 at `"doc.pdf"`: `".txt"` is appended, the result ends in
`".txt"` and not in `".txt.txt"`. -/
theorem finalizeName_spec_witness :
    endsWithLower "doc.pdf".toList txtExt = false ∧
      endsWithLower (finalizeName "doc.pdf".toList) txtExt = true ∧
      endsWithLower (finalizeName "doc.pdf".toList) (txtExt ++ txtExt) = false :=
  ⟨by decide, (finalizeName_spec "doc.pdf".toList).2.2 (by decide)⟩

end RothVectors
